import Mathlib

/-
A verification development of the nwtrees lexical analyzer
(src/nwtrees/Lexer.cpp, src/nwtrees/Lexer.hpp, src/nwtrees/util/Error.hpp).

The C++ source is shallowly embedded: the source buffer is a list of
characters backing a null-terminated C string, and every read through the
cursor goes through `readChar`, which yields the terminator character for
any position at or past the end of the list (the code never reads past the
terminator of a well-formed C string except where explicitly noted).
Loops of the C++ code become fuel-indexed structural recursions; each
wrapper supplies fuel that is provably sufficient (one unit per loop
iteration, and every loop of the source advances at least one byte per
iteration while below the end of the buffer).
Machine integers are modelled as `Int` (the values in all inputs considered
here are far below any overflow bound; the `(int)` narrowing cast of the
source is modelled by an explicit wrap at 2^32).  The `float` result of
`strtod` is modelled as an exact rational.
-/

set_option maxHeartbeats 1000000
set_option maxRecDepth 100000

namespace nwtrees

/-- Reads one byte of the source buffer: positions at or past the end of the
buffer read as the NUL terminator, exactly as the lexer's `read`/`peek` see
the terminator of a null-terminated C string. -/
def readChar (data : List Char) (i : Nat) : Char := data.getD i '\x00'

/-- Translation of `is_whitespace` from Lexer.cpp. -/
def is_whitespace (ch : Char) : Bool :=
  ch = ' ' || ch = '\t' || ch = '\x0b' || ch = '\x0c' || ch = '\r' || ch = '\n'

/-- Translation of `is_letter` from Lexer.cpp. -/
def is_letter (ch : Char) : Bool :=
  (decide ('A' ≤ ch) && decide (ch ≤ 'Z')) || (decide ('a' ≤ ch) && decide (ch ≤ 'z'))

/-- Translation of `is_digit` from Lexer.cpp. -/
def is_digit (ch : Char) : Bool :=
  decide ('0' ≤ ch) && decide (ch ≤ '9')

/-- Translation of `is_digit_hex` from Lexer.cpp. -/
def is_digit_hex (ch : Char) : Bool :=
  is_digit ch || (decide ('A' ≤ ch) && decide (ch ≤ 'F')) || (decide ('a' ≤ ch) && decide (ch ≤ 'f'))

/-- Fuel-indexed translation of `skip_until` from Lexer.cpp: counts bytes
from position `i` until a terminator character in `terms` or the NUL
terminator is reached. -/
def skip_untilF : Nat → List Char → Nat → List Char → Nat
  | 0, _, _, _ => 0
  | fuel+1, data, i, terms =>
    let ch := readChar data i
    if ch = '\x00' then 0
    else if ch ∈ terms then 0
    else 1 + skip_untilF fuel data (i+1) terms

/-- Wrapper `skip_until` from Lexer.cpp; the loop advances one byte per iteration and
stops no later than the end of the buffer, so `data.length + 1` units of fuel
always suffice. -/
def skip_until (data : List Char) (i : Nat) (terms : List Char) : Nat :=
  skip_untilF (data.length + 1) data i terms

/-- The `Keyword` enumeration from Lexer.hpp, in declaration order. -/
inductive Keyword : Type
  | If | Else | For | While | Do | Switch | Break | Return | Case | Const
  | Void | Int | Float | String | Struct | Object | Location | Vector
  | ItemProperty | Effect | Talent | Action | Event | ObjectInvalid
  | ObjectSelf | Default
  deriving DecidableEq, Repr

/-- The `Punctuator` enumeration from Lexer.hpp, in declaration order. -/
inductive Punctuator : Type
  | LeftSquareBracket | LeftCurlyBracket | LeftParen
  | RightSquareBracket | RightCurlyBracket | RightParen
  | Plus | PlusEquals | PlusPlus
  | Minus | MinusEquals | MinusMinus
  | Amp | AmpEquals | AmpAmp
  | Pipe | PipeEquals | PipePipe
  | Equal | EqualEqual
  | Exclamation | ExclamationEquals
  | Caret | CaretEquals
  | Slash | SlashEquals
  | Asterisk | AsteriskEquals
  | Less | LessEquals | LessLess | LessLessEquals
  | Greater | GreaterEquals | GreaterGreater | GreaterGreaterEquals
  | Modulo | ModuloEquals
  | Colon | ColonColon
  | Semicolon
  | Dot | DotDotDot
  | Comma | Question | Tilde
  deriving DecidableEq, Repr

/-- Structure `NameBufferEntry` from Lexer.hpp: an (offset, length) reference into a
byte buffer (the source buffer before compaction, the name buffer after). -/
structure NameBufferEntry where
  idx : Nat
  len : Nat
  deriving DecidableEq, Repr

/-- Structure `DebugData` from Lexer.hpp. -/
structure DebugData where
  line : Nat
  column_start : Nat
  column_end : Nat
  deriving DecidableEq, Repr

/-- Structure `DebugRange` from Lexer.cpp / Lexer.hpp: one source line's inclusive
byte range. -/
structure DebugRange where
  line : Nat
  index_start : Nat
  index_end : Nat
  deriving DecidableEq, Repr

/-- The payload of the `Literal` struct of Lexer.hpp: a string literal's
name-buffer entry, an int value, or a float value (modelled as an exact
rational). -/
inductive LiteralValue : Type
  | str (e : NameBufferEntry)
  | int (v : Int)
  | flt (v : Rat)
  deriving DecidableEq, Repr

/-- The discriminated payload of `Token` from Lexer.hpp (the spec's design
notes direct the tagged union to be modelled as a sum type). -/
inductive TokenData : Type
  | keyword (k : Keyword)
  | identifier (e : NameBufferEntry)
  | literal (v : LiteralValue)
  | punctuator (p : Punctuator)
  deriving DecidableEq, Repr

/-- Structure `Token` from Lexer.hpp.  The `debug` field exists on the C++ struct but
is never assigned anywhere in Lexer.cpp; an unassigned (indeterminate) field
is modelled as `none`. -/
structure Token where
  data : TokenData
  debug : Option DebugData
  deriving DecidableEq, Repr

/-- Structure `LexerMatch` from Lexer.cpp: a candidate token plus its consumed
length. -/
structure LexerMatch where
  token : Token
  length : Nat
  deriving DecidableEq, Repr

/-- The `Error::Code` enumeration from util/Error.hpp. -/
inductive ErrorCode : Type
  | Unknown
  deriving DecidableEq, Repr

/-- Structure `Error` from util/Error.hpp: a code plus an ordered list of context
strings. -/
structure Error where
  code : ErrorCode
  messages : List (List Char)
  deriving DecidableEq, Repr

/-- Structure `LexerOutput` from Lexer.hpp. -/
structure LexerOutput where
  tokens : List Token
  names : List Char
  errors : List Error
  debug_ranges : List DebugRange
  deriving DecidableEq, Repr

/-- The fixed keyword table `nwtrees::keywords` from Lexer.hpp, in table
order (which coincides with enumeration order, as the table's static_assert
pins its size). -/
def keywords : List (List Char × Keyword) :=
  [ ("if".toList, .If), ("else".toList, .Else), ("for".toList, .For),
    ("while".toList, .While), ("do".toList, .Do), ("switch".toList, .Switch),
    ("break".toList, .Break), ("return".toList, .Return), ("case".toList, .Case),
    ("const".toList, .Const), ("void".toList, .Void), ("int".toList, .Int),
    ("float".toList, .Float), ("string".toList, .String), ("struct".toList, .Struct),
    ("object".toList, .Object), ("location".toList, .Location), ("vector".toList, .Vector),
    ("itemproperty".toList, .ItemProperty), ("effect".toList, .Effect),
    ("talent".toList, .Talent), ("action".toList, .Action), ("event".toList, .Event),
    ("OBJECT_INVALID".toList, .ObjectInvalid), ("OBJECT_SELF".toList, .ObjectSelf),
    ("default".toList, .Default) ]

/-- Lookup `keywords[(int)keyword].first`: the table spelling of a keyword (the
table is indexed by the enumeration value). -/
def keywordSpelling : Keyword → List Char
  | .If => "if".toList
  | .Else => "else".toList
  | .For => "for".toList
  | .While => "while".toList
  | .Do => "do".toList
  | .Switch => "switch".toList
  | .Break => "break".toList
  | .Return => "return".toList
  | .Case => "case".toList
  | .Const => "const".toList
  | .Void => "void".toList
  | .Int => "int".toList
  | .Float => "float".toList
  | .String => "string".toList
  | .Struct => "struct".toList
  | .Object => "object".toList
  | .Location => "location".toList
  | .Vector => "vector".toList
  | .ItemProperty => "itemproperty".toList
  | .Effect => "effect".toList
  | .Talent => "talent".toList
  | .Action => "action".toList
  | .Event => "event".toList
  | .ObjectInvalid => "OBJECT_INVALID".toList
  | .ObjectSelf => "OBJECT_SELF".toList
  | .Default => "default".toList

/-- Lookup `punctuators[(int)punctuator].first`: the table spelling of a
punctuator (the table is indexed by the enumeration value). -/
def punctuatorSpelling : Punctuator → List Char
  | .LeftSquareBracket => "[".toList
  | .LeftCurlyBracket => "\x7b".toList
  | .LeftParen => "(".toList
  | .RightSquareBracket => "]".toList
  | .RightCurlyBracket => "\x7d".toList
  | .RightParen => ")".toList
  | .Plus => "+".toList
  | .PlusEquals => "+=".toList
  | .PlusPlus => "++".toList
  | .Minus => "-".toList
  | .MinusEquals => "-=".toList
  | .MinusMinus => "--".toList
  | .Amp => "&".toList
  | .AmpEquals => "&=".toList
  | .AmpAmp => "&&".toList
  | .Pipe => "|".toList
  | .PipeEquals => "|=".toList
  | .PipePipe => "||".toList
  | .Equal => "=".toList
  | .EqualEqual => "==".toList
  | .Exclamation => "!".toList
  | .ExclamationEquals => "!=".toList
  | .Caret => "^".toList
  | .CaretEquals => "^=".toList
  | .Slash => "/".toList
  | .SlashEquals => "/=".toList
  | .Asterisk => "*".toList
  | .AsteriskEquals => "*=".toList
  | .Less => "<".toList
  | .LessEquals => "<=".toList
  | .LessLess => "<<".toList
  | .LessLessEquals => "<<=".toList
  | .Greater => ">".toList
  | .GreaterEquals => ">=".toList
  | .GreaterGreater => ">>".toList
  | .GreaterGreaterEquals => ">>=".toList
  | .Modulo => "%".toList
  | .ModuloEquals => "%=".toList
  | .Colon => ":".toList
  | .ColonColon => "::".toList
  | .Semicolon => ";".toList
  | .Dot => ".".toList
  | .DotDotDot => "...".toList
  | .Comma => ",".toList
  | .Question => "?".toList
  | .Tilde => "~".toList

/-- Translation of `tokenize_keyword` from Lexer.cpp: the hand-built
decision tree on the first one or two characters selects a candidate
keyword, and `strncmp` then demands that the candidate's full spelling is a
prefix of the remaining input (the C++ switch is rendered as an equivalent
chain of character-equality tests). -/
def tokenize_keyword (data : List Char) (offset : Nat) : Option LexerMatch :=
  let c := readChar data offset
  let p := readChar data (offset + 1)
  let kw : Option Keyword :=
    if c = 'a' then some .Action
    else if c = 'b' then some .Break
    else if c = 'c' then some (if p = 'a' then .Case else .Const)
    else if c = 'd' then some (if p = 'e' then .Default else .Do)
    else if c = 'e' then
      (if p = 'f' then some .Effect
       else if p = 'l' then some .Else
       else if p = 'v' then some .Event
       else none)
    else if c = 'f' then some (if p = 'l' then .Float else .For)
    else if c = 'i' then
      (if p = 'f' then some .If
       else if p = 'n' then some .Int
       else if p = 't' then some .ItemProperty
       else none)
    else if c = 'l' then some .Location
    else if c = 'o' then some .Object
    else if c = 'r' then some .Return
    else if c = 's' then
      (if p = 't' then some (if readChar data (offset + 3) = 'i' then .String else .Struct)
       else if p = 'w' then some .Switch
       else none)
    else if c = 't' then some .Talent
    else if c = 'v' then some (if p = 'e' then .Vector else .Void)
    else if c = 'w' then some .While
    else none
  match kw with
  | none => none
  | some k =>
    let sp := keywordSpelling k
    if sp.isPrefixOf (data.drop offset) then
      some ⟨⟨.keyword k, none⟩, sp.length⟩
    else
      none

/-- Fuel-indexed count of the identifier-continuation run scanned by the
`while` loop of `tokenize_identifier` (letters, digits and underscores,
stopping at the NUL terminator). -/
def identRunF : Nat → List Char → Nat → Nat
  | 0, _, _ => 0
  | fuel+1, data, i =>
    let ch := readChar data i
    if ch = '\x00' then 0
    else if is_letter ch = false && is_digit ch = false && ch ≠ '_' then 0
    else 1 + identRunF fuel data (i+1)

/-- Translation of `tokenize_identifier` from Lexer.cpp: a maximal run
starting with a letter or underscore, continuing with letters, digits and
underscores. -/
def tokenize_identifier (data : List Char) (offset : Nat) : Option LexerMatch :=
  let c := readChar data offset
  if is_letter c = false && c ≠ '_' then none
  else
    let len := 1 + identRunF (data.length + 1) data (offset + 1)
    some ⟨⟨.identifier ⟨offset, len⟩, none⟩, len⟩

/-- Translation of `tokenize_punctuator` from Lexer.cpp: a decision tree on
the first one to three characters; the consumed length is the table length
of the selected punctuator's spelling. -/
def tokenize_punctuator (data : List Char) (offset : Nat) : Option LexerMatch :=
  let c := readChar data offset
  let p := readChar data (offset + 1)
  let p2 := readChar data (offset + 2)
  let pu : Option Punctuator :=
    if c = '&' then some (if p = '&' then .AmpAmp else if p = '=' then .AmpEquals else .Amp)
    else if c = '*' then some (if p ≠ '=' then .Asterisk else .AsteriskEquals)
    else if c = '^' then some (if p ≠ '=' then .Caret else .CaretEquals)
    else if c = ':' then some (if p ≠ ':' then .Colon else .ColonColon)
    else if c = ',' then some .Comma
    else if c = '.' then some (if p ≠ '.' ∨ p2 ≠ '.' then .Dot else .DotDotDot)
    else if c = '=' then some (if p ≠ '=' then .Equal else .EqualEqual)
    else if c = '!' then some (if p ≠ '=' then .Exclamation else .ExclamationEquals)
    else if c = '>' then
      some (if p = '=' then .GreaterEquals
            else if p = '>' then (if p2 ≠ '=' then .GreaterGreater else .GreaterGreaterEquals)
            else .Greater)
    else if c = '\x7b' then some .LeftCurlyBracket
    else if c = '(' then some .LeftParen
    else if c = '[' then some .LeftSquareBracket
    else if c = '<' then
      some (if p = '=' then .LessEquals
            else if p = '<' then (if p2 ≠ '=' then .LessLess else .LessLessEquals)
            else .Less)
    else if c = '-' then some (if p = '=' then .MinusEquals else if p = '-' then .MinusMinus else .Minus)
    else if c = '%' then some (if p ≠ '=' then .Modulo else .ModuloEquals)
    else if c = '|' then some (if p = '=' then .PipeEquals else if p = '|' then .PipePipe else .Pipe)
    else if c = '+' then some (if p = '=' then .PlusEquals else if p = '+' then .PlusPlus else .Plus)
    else if c = '?' then some .Question
    else if c = '\x7d' then some .RightCurlyBracket
    else if c = ')' then some .RightParen
    else if c = ']' then some .RightSquareBracket
    else if c = ';' then some .Semicolon
    else if c = '/' then some (if p ≠ '=' then .Slash else .SlashEquals)
    else if c = '~' then some .Tilde
    else none
  match pu with
  | none => none
  | some q => some ⟨⟨.punctuator q, none⟩, (punctuatorSpelling q).length⟩

/-- Fuel-indexed translation of the string-literal scanning loop of
`tokenize_literal`: starting just past the opening quote, repeatedly skip to
the next quote, newline or terminator; a newline invalidates the literal
(`none`), a quote preceded by a backslash is stepped past, and otherwise the
scan stops.  Returns the final cursor offset of the scan. -/
def stringScanF : Nat → List Char → Nat → Option Nat
  | 0, _, temp => some temp
  | fuel+1, data, temp =>
    if readChar data temp = '\x00' then some temp
    else
      let t2 := temp + skip_until data temp ['"', '\n']
      if readChar data t2 = '\n' then none
      else if readChar data (t2 - 1) = '\\' then stringScanF fuel data (t2 + 1)
      else some t2

/-- The set of characters the C library `isspace` accepts (used by the
`strtol`/`strtod` models below). -/
def isSpaceC (ch : Char) : Bool :=
  ch = ' ' || ch = '\t' || ch = '\n' || ch = '\x0b' || ch = '\x0c' || ch = '\r'

/-- Numeric value of one hexadecimal digit. -/
def hexDigitVal (ch : Char) : Nat :=
  if is_digit ch then ch.toNat - '0'.toNat
  else if decide ('A' ≤ ch) && decide (ch ≤ 'F') then ch.toNat - 'A'.toNat + 10
  else if decide ('a' ≤ ch) && decide (ch ≤ 'f') then ch.toNat - 'a'.toNat + 10
  else 0

/-- Digit predicate for `strtol`'s base (the lexer only calls it with base
10 or base 16). -/
def isBaseDigit (base : Nat) (ch : Char) : Bool :=
  if base = 16 then is_digit_hex ch else is_digit ch

/-- Value of a digit string in the given base. -/
def digitsVal (base : Nat) (ds : List Char) : Nat :=
  ds.foldl (fun a c => a * base + hexDigitVal c) 0

/-- Model of the C library `strtol(nptr, &end, base)` on the tail of the
source buffer: optional whitespace, optional sign, for base 16 an optional
`0x`/`0X` prefix (consumed only when a hex digit follows), then the longest
run of digits of the base.  Returns the parsed value and the number of
characters consumed (`end - nptr`); if no digits are converted, nothing is
consumed and the value is zero.  Saturation at `LONG_MAX`/`LONG_MIN` is not
modelled (every input considered in this development is far below it). -/
def strtolParse (s : List Char) (base : Nat) : Int × Nat :=
  let ws := (s.takeWhile isSpaceC).length
  let s1 := s.drop ws
  let sl := if s1.getD 0 '\x00' = '+' ∨ s1.getD 0 '\x00' = '-' then 1 else 0
  let sgn : Int := if s1.getD 0 '\x00' = '-' then -1 else 1
  let s2 := s1.drop sl
  let pre :=
    if base = 16 ∧ s2.getD 0 '\x00' = '0' ∧ (s2.getD 1 '\x00' = 'x' ∨ s2.getD 1 '\x00' = 'X')
       ∧ is_digit_hex (s2.getD 2 '\x00') then 2 else 0
  let s3 := s2.drop pre
  let ds := s3.takeWhile (isBaseDigit base)
  if ds.length = 0 then (0, 0)
  else (sgn * (digitsVal base ds : Int), ws + sl + pre + ds.length)

/-- Model of the C library `strtod(nptr, &end)` on decimal inputs (the
lexer only hands `strtod` text that begins with a digit, a period or a
sign, and the hex-literal path never reaches `strtod`, so the decimal
grammar suffices): optional whitespace, optional sign, a nonempty digit
sequence possibly containing one period, then an optional exponent part
`e`/`E` with optional sign that is consumed only when at least one exponent
digit follows.  Returns the exact rational value and the number of
characters consumed; if no digits are converted, nothing is consumed and
the value is zero. -/
def strtodParse (s : List Char) : Rat × Nat :=
  let ws := (s.takeWhile isSpaceC).length
  let s1 := s.drop ws
  let sl := if s1.getD 0 '\x00' = '+' ∨ s1.getD 0 '\x00' = '-' then 1 else 0
  let sgn : Int := if s1.getD 0 '\x00' = '-' then -1 else 1
  let s2 := s1.drop sl
  let ip := s2.takeWhile is_digit
  let s3 := s2.drop ip.length
  let hasDot := s3.getD 0 '\x00' = '.'
  let fp := if hasDot then (s3.drop 1).takeWhile is_digit else []
  let s4 := if hasDot then (s3.drop 1).drop fp.length else s3
  if ip.length + fp.length = 0 then (0, 0)
  else
    -- The exact value sign * (ip . fp) * 10^(+-ed), kept as an integer
    -- numerator over a power-of-ten denominator.
    let mantNum : Int := sgn * ((digitsVal 10 ip * 10 ^ fp.length + digitsVal 10 fp : Nat) : Int)
    let mantDen : Nat := 10 ^ fp.length
    let baseLen := ws + sl + ip.length + (if hasDot then 1 + fp.length else 0)
    let hasExpMarker := s4.getD 0 '\x00' = 'e' ∨ s4.getD 0 '\x00' = 'E'
    let s5 := s4.drop 1
    let esl := if s5.getD 0 '\x00' = '+' ∨ s5.getD 0 '\x00' = '-' then 1 else 0
    let expNeg : Bool := s5.getD 0 '\x00' = '-'
    let ed := (s5.drop esl).takeWhile is_digit
    if hasExpMarker ∧ ed.length ≠ 0 then
      let ev := digitsVal 10 ed
      let v := if expNeg then mkRat mantNum (mantDen * 10 ^ ev)
               else mkRat (mantNum * ((10 ^ ev : Nat) : Int)) mantDen
      (v, baseLen + 1 + esl + ed.length)
    else
      (mkRat mantNum mantDen, baseLen)

/-- Fuel-indexed translation of the numeric scanning `for` loop of
`tokenize_literal`: starting at `distance` past the literal's first
character, it tracks the seen-decimal / seen-exponent / seen-float-suffix /
seen-digit flags, and on the first character that fits none of those
classes it demands that character be a punctuator start or whitespace
(otherwise the whole literal attempt fails, `none`).  Returns the final
distance and flag values. -/
def numScanF : Nat → List Char → Nat → Bool → Nat → Bool → Bool → Bool → Bool →
    Option (Nat × Bool × Bool × Bool × Bool)
  | 0, _, _, _, d, sn, sd, se, sf => some (d, sn, sd, se, sf)
  | fuel+1, data, offset, isHex, d, sn, sd, se, sf =>
    let ch := readChar data (offset + d)
    if ch = '\x00' then some (d, sn, sd, se, sf)
    else if isHex = false ∧ sd = false ∧ ch = '.' then
      numScanF fuel data offset isHex (d+1) sn true se sf
    else if isHex = false ∧ se = false ∧ ch = 'e' then
      numScanF fuel data offset isHex (d+1) sn sd true sf
    else if isHex = false ∧ sf = false ∧ ch = 'f' then
      numScanF fuel data offset isHex (d+1) sn sd se true
    else if is_digit ch = true ∨ (isHex = true ∧ is_digit_hex ch = true) then
      numScanF fuel data offset isHex (d+1) true sd se sf
    else if (tokenize_punctuator data (offset + d)).isSome = true ∨ is_whitespace ch = true then
      some (d, sn, sd, se, sf)
    else
      none

/-- The `(int)` narrowing cast applied to `strtol`'s result. -/
def wrap32 (v : Int) : Int := (v + 2 ^ 31) % 2 ^ 32 - 2 ^ 31

/-- Translation of `tokenize_literal` from Lexer.cpp.  Three sub-cases on
the first character: an opening quote starts the string scan (on success
the text reference spans the interior, excluding both quotes, and the
committed length includes them); a digit, period or sign starts the numeric
scan, which fails if no digit was ever seen, and otherwise parses the text
with `strtod` (base-10) or `strtol` (base 10 or 16) and classifies the
token as Float exactly when a decimal point, exponent marker or float
suffix was seen; anything else is no match. -/
def tokenize_literal (data : List Char) (offset : Nat) : Option LexerMatch :=
  let first := readChar data offset
  if first = '"' then
    match stringScanF (data.length + 1) data (offset + 1) with
    | none => none
    | some fin =>
      let len := fin - offset + 1
      some ⟨⟨.literal (.str ⟨offset + 1, len - 2⟩), none⟩, len⟩
  else if is_digit first = true ∨ first = '.' ∨ first = '+' ∨ first = '-' then
    let isHex := first = '0' && (readChar data (offset + 1) = 'x' || readChar data (offset + 1) = 'X')
    let d0 := if isHex then 2 else 1
    match numScanF (data.length + 1) data offset isHex d0 (is_digit first) (first = '.') false false with
    | none => none
    | some (d, sn, sd, se, sf) =>
      if sn = false then none
      else if sd = true ∨ se = true ∨ sf = true then
        some ⟨⟨.literal (.flt (strtodParse (data.drop offset)).1), none⟩, d⟩
      else
        let base := if isHex then 16 else 10
        some ⟨⟨.literal (.int (wrap32 (strtolParse (data.drop offset) base).1)), none⟩, d⟩
  else
    none

/-- The internal-consistency check of Lexer.cpp lines 347-351: after a
successful numeric scan, the length consumed by the standard-library parser
(plus one for a skipped trailing float suffix) is compared with the scanned
length; `true` means the two disagree.  In the source this condition feeds
`NWTREES_ASSERT_MSG`, which prints in `_DEBUG` builds and expands to
`(void)0` otherwise. -/
def numericLengthMismatch (data : List Char) (offset : Nat) : Bool :=
  let first := readChar data offset
  if is_digit first = true ∨ first = '.' ∨ first = '+' ∨ first = '-' then
    let isHex := first = '0' && (readChar data (offset + 1) = 'x' || readChar data (offset + 1) = 'X')
    let d0 := if isHex then 2 else 1
    match numScanF (data.length + 1) data offset isHex d0 (is_digit first) (first = '.') false false with
    | none => false
    | some (d, sn, sd, se, sf) =>
      if sn = false then false
      else
        let parsedLen :=
          if sd = true ∨ se = true ∨ sf = true then (strtodParse (data.drop offset)).2
          else (strtolParse (data.drop offset) (if isHex then 16 else 10)).2
        let parsedLen := if sf then parsedLen + 1 else parsedLen
        decide (parsedLen ≠ d)
  else false

/-- Fuel-indexed translation of the block-comment loop inside `seek`: while
not at the terminator, advance by `max 1 (skip_until '/')`; if the byte
before the new position is `*`, step past the closing slash and stop.
Returns the final offset. -/
def blockCommentF : Nat → List Char → Nat → Nat
  | 0, _, i => i
  | fuel+1, data, i =>
    if readChar data i = '\x00' then i
    else
      let j := i + max 1 (skip_until data i ['/'])
      if readChar data (j - 1) = '*' then j + 1
      else blockCommentF fuel data j

/-- Fuel-indexed translation of `seek` from Lexer.cpp: advance past `#`
lines, `//` line comments, `/* */` block comments and whitespace; stop at
the first significant character or at the terminator.  Returns the final
offset (the character `seek` returns is the byte found there). -/
def seekF : Nat → List Char → Nat → Nat
  | 0, _, i => i
  | fuel+1, data, i =>
    let ch := readChar data i
    if ch = '\x00' then i
    else if ch = '#' then seekF fuel data (i + skip_until data i ['\n'])
    else if ch = '/' then
      (if readChar data (i + 1) = '/' then seekF fuel data (i + skip_until data i ['\n'])
       else if readChar data (i + 1) = '*' then seekF fuel data (blockCommentF (data.length + 1) data i)
       else i)
    else if is_whitespace ch then seekF fuel data (i + 1)
    else i

/-- Wrapper `seek` from Lexer.cpp; every loop iteration advances the offset by at
least one byte while below the end of the buffer, so `data.length + 1`
units of fuel always suffice. -/
def seek (data : List Char) (i : Nat) : Nat := seekF (data.length + 1) data i

/-- Fuel-indexed translation of `make_debug_ranges` from Lexer.cpp: walk the
buffer, closing a range at every newline (its inclusive end is the newline's
own index) and emitting one final range ending at the terminator's index. -/
def make_debug_rangesF : Nat → List Char → Nat → Nat → Nat → List DebugRange
  | 0, _, i, line, start => [⟨line, start, i⟩]
  | fuel+1, data, i, line, start =>
    if readChar data i = '\x00' then [⟨line, start, i⟩]
    else if readChar data i = '\n' then
      ⟨line, start, i⟩ :: make_debug_rangesF fuel data (i + 1) (line + 1) (i + 1)
    else make_debug_rangesF fuel data (i + 1) line start

/-- Wrapper `make_debug_ranges` from Lexer.cpp. -/
def make_debug_ranges (data : List Char) : List DebugRange :=
  make_debug_rangesF (data.length + 1) data 0 0 0

/-- Translation of `find_debug_range` from Lexer.cpp: `std::lower_bound` on
a sequence sorted by `index_end` returns the first element whose
`index_end` is not less than the probed offset, i.e. the first range whose
inclusive end is at or past the offset.  The source asserts the lookup
never falls off the end; the model returns `none` there. -/
def find_debug_range (ranges : List DebugRange) (offset : Nat) : Option DebugRange :=
  ranges.find? (fun r => decide (offset ≤ r.index_end))

/-- The first context string of every lexer error ("Unknown Token"). -/
def unknownLabel : List Char := "Unknown Token".toList

/-- The error appended by `lexer` when no recognizer matches at a
significant position (Lexer.cpp lines 465-474): kind `Unknown`, the fixed
label, and at most 127 bytes of the line containing the failure
(`line_buff` is 128 bytes including its NUL). -/
def unknownError (data : List Char) (p : Nat) : Error :=
  let r := (find_debug_range (make_debug_ranges data) p).getD ⟨0, 0, 0⟩
  let excerpt := (data.drop r.index_start).take (min 127 (r.index_end - r.index_start))
  ⟨.Unknown, [unknownLabel, excerpt]⟩

/-- The match-gathering step of the `lexer` loop: all four recognizers run
at the current position, and the successful ones are collected in the fixed
order keyword, identifier, literal, punctuator (the order of the four `if`
blocks in Lexer.cpp lines 445-463). -/
def gatherMatches (data : List Char) (offset : Nat) : List LexerMatch :=
  (tokenize_keyword data offset).toList ++ (tokenize_identifier data offset).toList ++
  (tokenize_literal data offset).toList ++ (tokenize_punctuator data offset).toList

/-- The match-selection step of the `lexer` loop: `std::stable_sort` with
`cmp` (greater length first) followed by taking `matches[0]` selects the
first match of maximal length, which this fold computes directly (a later
match replaces the current best only when its length is strictly
greater). -/
def selectMatch : List LexerMatch → Option LexerMatch
  | [] => none
  | m :: ms => some (ms.foldl (fun best x => if best.length < x.length then x else best) m)

/-- Fuel-indexed translation of the main `while (seek(input))` loop of
`lexer`: seek to the next significant character; stop at the terminator;
with no successful match, emit the single UnknownToken error and stop;
otherwise commit the selected match's token and advance by its length. -/
def lexLoopF : Nat → List Char → Nat → List Token × List Error
  | 0, _, _ => ([], [])
  | fuel+1, data, o =>
    let o2 := seek data o
    if readChar data o2 = '\x00' then ([], [])
    else
      match selectMatch (gatherMatches data o2) with
      | none => ([], [unknownError data o2])
      | some m =>
        let rest := lexLoopF fuel data (o2 + m.length)
        (m.token :: rest.1, rest.2)

/-- The main token loop of `lexer`, started at offset 0; each committed
token consumes at least one byte from a position below the end of the
buffer, so `data.length + 1` units of fuel always suffice. -/
def lexLoop (data : List Char) : List Token × List Error :=
  lexLoopF (data.length + 1) data 0

/-- The name-buffer reference carried by a token that the compaction pass
relocates: identifiers and string literals only (Lexer.cpp lines
500-505). -/
def entryOf (t : Token) : Option NameBufferEntry :=
  match t.data with
  | .identifier e => some e
  | .literal (.str e) => some e
  | _ => none

/-- Rewrites a token's name-buffer reference (the `entry->idx = new_idx`
store of the compaction pass). -/
def setEntry (t : Token) (e : NameBufferEntry) : Token :=
  match t.data with
  | .identifier _ => ⟨.identifier e, t.debug⟩
  | .literal (.str _) => ⟨.literal (.str e), t.debug⟩
  | _ => t

/-- The `len` bytes of the source buffer starting at `idx`, as the compaction
pass's `memcpy` reads them through the cursor model (a position at or past
the end of the buffer reads as the terminator). -/
def readSlice (data : List Char) (idx len : Nat) : List Char :=
  (List.range len).map (fun j => readChar data (idx + j))

/-- Translation of the name-buffer compaction pass of `lexer` (lines
496-511): for every identifier or string-literal token, append the
referenced source bytes to the name buffer and rewrite the token's
reference to the appended location. -/
def compactTokens (data : List Char) : List Token → List Char → List Token × List Char
  | [], names => ([], names)
  | t :: ts, names =>
    match entryOf t with
    | some e =>
      let t2 := setEntry t ⟨names.length, e.len⟩
      let (ts2, names2) := compactTokens data ts (names ++ readSlice data e.idx e.len)
      (t2 :: ts2, names2)
    | none =>
      let (ts2, names2) := compactTokens data ts names
      (t :: ts2, names2)

/-- Translation of `nwtrees::lexer`: recycle the previous output's storage
(`prepare_output` clears the token list, name buffer and error list; the
`debug_ranges` member is not cleared), run the token loop, then run the
compaction pass. -/
def lexer (data : List Char) (prev_output : LexerOutput) : LexerOutput :=
  let (rawTokens, errors) := lexLoop data
  let (tokens, names) := compactTokens data rawTokens []
  ⟨tokens, names, errors, prev_output.debug_ranges⟩

/-- One lexing call against fresh output storage. -/
def lexerRun (data : List Char) : LexerOutput := lexer data ⟨[], [], [], []⟩

/-- The commit sequence strictly before a failure point `p`: the tokens the
`lexer` loop commits while its significant cursor position has not yet
reached `p` (this is the spec's phrase "tokens lexed strictly before the
failure point" rendered as its own definition, for comparison with the
loop's actual output). -/
def tokensBeforeF : Nat → List Char → Nat → Nat → List Token
  | 0, _, _, _ => []
  | fuel+1, data, o, p =>
    let o2 := seek data o
    if o2 = p then []
    else if readChar data o2 = '\x00' then []
    else
      match selectMatch (gatherMatches data o2) with
      | none => []
      | some m => m.token :: tokensBeforeF fuel data (o2 + m.length) p

/-- The tokens committed strictly before failure point `p`, starting from
offset 0 with the same fuel as the lexer loop. -/
def tokensBefore (data : List Char) (p : Nat) : List Token :=
  tokensBeforeF (data.length + 1) data 0 p

/-- The fold inside `selectMatch` returns the first element of maximal
length of `m0 :: ms`: every element's length is bounded by the result's,
and the list splits around the result with everything before it strictly
shorter. -/
theorem foldl_pick_spec : ∀ (ms : List LexerMatch) (m0 r : LexerMatch),
    ms.foldl (fun best x => if best.length < x.length then x else best) m0 = r →
    (∀ x ∈ m0 :: ms, x.length ≤ r.length) ∧
    ∃ l1 l2, m0 :: ms = l1 ++ r :: l2 ∧ ∀ x ∈ l1, x.length < r.length := by
  intro ms
  induction ms with
  | nil =>
    intro m0 r hr
    simp only [List.foldl_nil] at hr
    subst hr
    refine ⟨?_, [], [], rfl, by simp⟩
    intro x hx
    simp only [List.mem_singleton] at hx
    simp [hx]
  | cons a ms ih =>
    intro m0 r hr
    simp only [List.foldl_cons] at hr
    by_cases h : m0.length < a.length
    · rw [if_pos h] at hr
      obtain ⟨hle, l1, l2, hsplit, hlt⟩ := ih a r hr
      have har : a.length ≤ r.length := hle a (by simp)
      refine ⟨?_, m0 :: l1, l2, ?_, ?_⟩
      · intro x hx
        rcases List.mem_cons.mp hx with hx0 | hx1
        · subst hx0
          exact le_of_lt (lt_of_lt_of_le h har)
        · exact hle x hx1
      · rw [List.cons_append, ← hsplit]
      · intro x hx
        rcases List.mem_cons.mp hx with hx0 | hx1
        · subst hx0
          exact lt_of_lt_of_le h har
        · exact hlt x hx1
    · rw [if_neg h] at hr
      obtain ⟨hle, l1, l2, hsplit, hlt⟩ := ih m0 r hr
      have hale : a.length ≤ m0.length := Nat.le_of_not_lt h
      have hm0r : m0.length ≤ r.length := hle m0 (by simp)
      refine ⟨?_, ?_⟩
      · intro x hx
        rcases List.mem_cons.mp hx with hx0 | hx1
        · subst hx0
          exact hm0r
        · rcases List.mem_cons.mp hx1 with hx2 | hx3
          · subst hx2
            exact le_trans hale hm0r
          · exact hle x (by simp [hx3])
      · rcases l1 with _ | ⟨b, l1t⟩
        · -- the selected match is m0 itself
          have hm0 : m0 = r := by
            have hh := congrArg List.head? hsplit
            simpa using hh
          refine ⟨[], a :: ms, ?_, by simp⟩
          rw [hm0]
          simp
        · -- the selected match sits inside ms
          have hb : m0 = b ∧ ms = l1t ++ r :: l2 := by
            have hh := hsplit
            simp only [List.cons_append, List.cons.injEq] at hh
            exact hh
          obtain ⟨hb1, hb2⟩ := hb
          have hm0lt : m0.length < r.length := by
            rw [hb1]
            exact hlt b (by simp)
          refine ⟨m0 :: a :: l1t, l2, ?_, ?_⟩
          · rw [hb2]
            simp
          · intro x hx
            rcases List.mem_cons.mp hx with hx0 | hx1
            · subst hx0
              exact hm0lt
            · rcases List.mem_cons.mp hx1 with hx2 | hx3
              · subst hx2
                exact lt_of_le_of_lt hale hm0lt
              · exact hlt x (by simp [hx3])

/-- C1: at every significant cursor position all four recognizers are run
and their successful matches gathered in the fixed priority order keyword,
identifier, literal, punctuator; the committed match is of maximal consumed
length, and every gathered match strictly before it in priority order is
strictly shorter (equal-length ties therefore resolve to the higher
priority class).  Concretely, the input consisting of greater greater
equals lexes as the single GreaterGreaterEquals punctuator, and the input
0x5F lexes as a single Int literal of value 95. -/
theorem C1_longest_match_tiebreak :
    (∀ (data : List Char) (o : Nat) (m : LexerMatch),
        selectMatch (gatherMatches data o) = some m →
        (∀ x ∈ gatherMatches data o, x.length ≤ m.length) ∧
        ∃ l1 l2, gatherMatches data o = l1 ++ m :: l2 ∧ ∀ x ∈ l1, x.length < m.length) ∧
    (lexerRun ">>=".toList).tokens = [⟨.punctuator .GreaterGreaterEquals, none⟩] ∧
    (lexerRun ">>=".toList).errors = [] ∧
    (lexerRun "0x5F".toList).tokens = [⟨.literal (.int 95), none⟩] ∧
    (lexerRun "0x5F".toList).errors = [] := by
  refine ⟨?_, by decide, by decide, by decide, by decide⟩
  intro data o m hm
  rcases hg : gatherMatches data o with _ | ⟨m0, ms⟩
  · rw [hg] at hm
    simp [selectMatch] at hm
  · rw [hg] at hm
    simp only [selectMatch, Option.some.injEq] at hm
    obtain ⟨hle, l1, l2, hsplit, hlt⟩ := foldl_pick_spec ms m0 m hm
    exact ⟨hle, l1, l2, hsplit, hlt⟩

/-- Witness for C1: the selection hypothesis holds concretely on the three
byte input of greater greater equals, whose single gathered match is the
GreaterGreaterEquals punctuator of length 3. -/
theorem C1_longest_match_tiebreak_witness :
    selectMatch (gatherMatches ">>=".toList 0) =
      some ⟨⟨.punctuator .GreaterGreaterEquals, none⟩, 3⟩ ∧
    ((∀ x ∈ gatherMatches ">>=".toList 0, x.length ≤ 3) ∧
      ∃ l1 l2, gatherMatches ">>=".toList 0 =
          l1 ++ (⟨⟨.punctuator .GreaterGreaterEquals, none⟩, 3⟩ : LexerMatch) :: l2 ∧
        ∀ x ∈ l1, x.length < 3) :=
  ⟨by decide, C1_longest_match_tiebreak.1 ">>=".toList 0
    ⟨⟨.punctuator .GreaterGreaterEquals, none⟩, 3⟩ (by decide)⟩

/-- Fact: `selectMatch` returns `none` exactly on the empty match list. -/
theorem selectMatch_none_iff (l : List LexerMatch) : selectMatch l = none ↔ l = [] := by
  cases l <;> simp [selectMatch]

/-- Unpacking of `lexer`: its output fields are the compacted token loop
results, the loop's errors, and the recycled `debug_ranges` storage. -/
theorem lexer_eq (data : List Char) (prev : LexerOutput) :
    lexer data prev =
      ⟨(compactTokens data (lexLoop data).1 []).1,
       (compactTokens data (lexLoop data).1 []).2,
       (lexLoop data).2, prev.debug_ranges⟩ := by
  unfold lexer
  rcases h : lexLoop data with ⟨ts, es⟩
  rcases h2 : compactTokens data ts [] with ⟨ts2, ns⟩
  simp [h, h2]

/-- Invariant of the lexer loop at every fuel value: either no error is
produced, or there is a failure position at which no recognizer matched,
the error list is exactly the single UnknownToken error built there, and
the loop's tokens are exactly the commits made strictly before that
position. -/
theorem lexLoopF_spec (data : List Char) : ∀ (fuel o : Nat),
    (lexLoopF fuel data o).2 = [] ∨
    ∃ p, readChar data p ≠ '\x00' ∧ gatherMatches data p = [] ∧
      (lexLoopF fuel data o).2 = [unknownError data p] ∧
      (lexLoopF fuel data o).1 = tokensBeforeF fuel data o p := by
  intro fuel
  induction fuel with
  | zero =>
    intro o
    left
    rfl
  | succ fuel ih =>
    intro o
    by_cases hz : readChar data (seek data o) = '\x00'
    · left
      simp [lexLoopF, hz]
    · rcases hsel : selectMatch (gatherMatches data (seek data o)) with _ | m
      · right
        refine ⟨seek data o, hz, (selectMatch_none_iff _).mp hsel, ?_, ?_⟩
        · simp [lexLoopF, hz, hsel]
        · simp [lexLoopF, tokensBeforeF, hz, hsel]
      · rcases ih (seek data o + m.length) with hrest | ⟨p, hp1, hp2, hp3, hp4⟩
        · left
          simp [lexLoopF, hz, hsel, hrest]
        · right
          have hne : seek data o ≠ p := by
            intro heq
            rw [heq, hp2] at hsel
            simp [selectMatch] at hsel
          refine ⟨p, hp1, hp2, ?_, ?_⟩
          · simp [lexLoopF, hz, hsel, hp3]
          · simp [lexLoopF, tokensBeforeF, hz, hsel, hne, hp4]

/-- The input of the keyword idempotence property: every keyword spelling of
the fixed table, each followed by a single space, in table order. -/
def keywordConcatInput : List Char := (keywords.map (fun p => p.1 ++ [' '])).flatten

/-- C2: lexing the concatenation of every keyword spelling (each followed by
one space) does NOT yield one Keyword token per table entry: the decision
tree of `tokenize_keyword` has no branch for an upper-case first character,
so the table entries OBJECT_INVALID and OBJECT_SELF (positions 23 and 24)
lex as Identifier tokens, and their text (25 bytes) is interned into the
name buffer, which the claim — and the repository's own test
`Lexer.Keywords` — require to be empty.  The remaining 24 entries do lex as
Keyword tokens in table order. -/
theorem C2_keyword_table_eval :
    ((lexerRun keywordConcatInput).tokens.map Token.data) =
      (keywords.take 23).map (fun p => TokenData.keyword p.2) ++
        [TokenData.identifier ⟨0, 14⟩, TokenData.identifier ⟨14, 11⟩,
         TokenData.keyword Keyword.Default] ∧
    (lexerRun keywordConcatInput).names = "OBJECT_INVALIDOBJECT_SELF".toList ∧
    (lexerRun keywordConcatInput).errors = [] := by
  constructor
  · decide
  constructor
  · decide
  · decide

/-- C4 (counterexample): the committed token of the one-character input
`a` carries no debug data — `lexer` commits `selected_match.token` without
ever writing the token's `debug` field, refuting the claim that every
committed token carries line/column data resolved through the Line
Index. -/
theorem C4_debug_unset_counterexample :
    ((lexerRun ['a']).tokens.map Token.debug) = [none] := by decide

/-- C6: numeric/operator disambiguation.  The input `.1` lexes as a single
Float literal of value 1/10; the numeric attempt on a bare `.` fails (no
digit was ever seen) and the input `.` lexes as the Dot punctuator; and the
input `-1` lexes as a single Int literal of value -1 rather than a Minus
punctuator followed by a literal. -/
theorem C6_numeric_disambiguation :
    (lexerRun ".1".toList).tokens = [⟨.literal (.flt (1 / 10)), none⟩] ∧
    (lexerRun ".1".toList).errors = [] ∧
    tokenize_literal ".".toList 0 = none ∧
    (lexerRun ".".toList).tokens = [⟨.punctuator .Dot, none⟩] ∧
    (lexerRun ".".toList).errors = [] ∧
    (lexerRun "-1".toList).tokens = [⟨.literal (.int (-1)), none⟩] ∧
    (lexerRun "-1".toList).errors = [] := by
  refine ⟨by with_unfolding_all rfl, by decide, by decide, by decide, by decide,
    by decide, by decide⟩

/-- C8 (counterexample): on the input `1e` the numeric scan consumes 2
bytes but `strtod` consumes only 1 (`1e` has no exponent digits), so the
length-mismatch condition of Lexer.cpp lines 347-351 holds — yet the
returned error list is empty: the mismatch is neither converted into an
UnknownToken error nor reported as any other error kind. -/
theorem C8_mismatch_silent_counterexample :
    numericLengthMismatch "1e".toList 0 = true ∧ (lexerRun "1e".toList).errors = [] := by
  exact ⟨by decide, by decide⟩

/-- C9: the input `"a" "b"` lexes as TWO adjacent String literal tokens;
the merge of adjacent string literals announced by the comment at
Lexer.cpp lines 513-515 is not implemented, while the claim — and the
repository's own test `Lexer.Literals_String_Concat` — require a single
merged String token. -/
theorem C9_string_concat_eval :
    lexerRun "\"a\" \"b\"".toList =
      ⟨[⟨.literal (.str ⟨0, 1⟩), none⟩, ⟨.literal (.str ⟨1, 1⟩), none⟩],
       ['a', 'b'], [], []⟩ := by decide

/-- C10 (counterexample): on the two-byte input consisting of a quote and a
backslash — an opening quote never followed by a closing quote or a newline
— the string branch does match, but the scan treats the terminator as an
escaped character and steps past it: the committed length is 4, not the
claimed one-byte-more-than-remaining (2 + 1 = 3), and the text reference
spans two positions after the quote where only one byte remains. -/
theorem C10_trailing_backslash_counterexample :
    (tokenize_literal ['"', '\\'] 0).map LexerMatch.length = some 4 ∧
    ¬ ((tokenize_literal ['"', '\\'] 0).map LexerMatch.length =
        some (['"', '\\'].length + 1)) := by
  exact ⟨by decide, by decide⟩

/-- C3: when no recognizer matches at a position the seek logic considered
significant, the lexer appends exactly one error: it has kind Unknown, its
messages are the fixed label and an excerpt of at most 127 bytes taken from
the line of the failure position, and tokenization halts with exactly the
tokens committed strictly before the failure position (followed only by the
compaction pass); otherwise the error list is empty. -/
theorem C3_unknown_token_halts (data : List Char) :
    (lexerRun data).errors = [] ∨
    ∃ p, readChar data p ≠ '\x00' ∧
      gatherMatches data p = [] ∧
      (lexerRun data).errors = [unknownError data p] ∧
      (unknownError data p).code = ErrorCode.Unknown ∧
      (∃ excerpt, (unknownError data p).messages = [unknownLabel, excerpt] ∧
        excerpt.length ≤ 127) ∧
      (lexerRun data).tokens = (compactTokens data (tokensBefore data p) []).1 := by
  have herr : (lexerRun data).errors = (lexLoop data).2 := by
    rw [lexerRun, lexer_eq]
  have htok : (lexerRun data).tokens = (compactTokens data (lexLoop data).1 []).1 := by
    rw [lexerRun, lexer_eq]
  rcases lexLoopF_spec data (data.length + 1) 0 with h | ⟨p, hp1, hp2, hp3, hp4⟩
  · left
    rw [herr]
    exact h
  · right
    refine ⟨p, hp1, hp2, by rw [herr]; exact hp3, rfl, ⟨_, rfl, ?_⟩, ?_⟩
    · simp [List.length_take]
    · rw [htok]
      have : (lexLoop data).1 = tokensBefore data p := hp4
      rw [this]

/-- Every match returned by the keyword recognizer carries an unset debug
field. -/
theorem tokenize_keyword_debug (data : List Char) (o : Nat) (m : LexerMatch)
    (h : tokenize_keyword data o = some m) : m.token.debug = none := by
  simp only [tokenize_keyword] at h
  split at h
  · simp at h
  · split at h
    · simp only [Option.some.injEq] at h
      subst h
      rfl
    · simp at h

/-- Every match returned by the identifier recognizer carries an unset
debug field. -/
theorem tokenize_identifier_debug (data : List Char) (o : Nat) (m : LexerMatch)
    (h : tokenize_identifier data o = some m) : m.token.debug = none := by
  simp only [tokenize_identifier] at h
  split at h
  · simp at h
  · simp only [Option.some.injEq] at h
    subst h
    rfl

/-- Every match returned by the punctuator recognizer carries an unset
debug field. -/
theorem tokenize_punctuator_debug (data : List Char) (o : Nat) (m : LexerMatch)
    (h : tokenize_punctuator data o = some m) : m.token.debug = none := by
  simp only [tokenize_punctuator] at h
  split at h
  · simp at h
  · simp only [Option.some.injEq] at h
    subst h
    rfl

/-- Every match returned by the literal recognizer carries an unset debug
field. -/
theorem tokenize_literal_debug (data : List Char) (o : Nat) (m : LexerMatch)
    (h : tokenize_literal data o = some m) : m.token.debug = none := by
  simp only [tokenize_literal] at h
  split at h
  · split at h
    · simp at h
    · simp only [Option.some.injEq] at h
      subst h
      rfl
  · split at h
    · split at h
      · simp at h
      · split at h
        · simp at h
        · split at h
          · simp only [Option.some.injEq] at h
            subst h
            rfl
          · simp only [Option.some.injEq] at h
            subst h
            rfl
    · simp at h

/-- A selected match is one of the gathered matches. -/
theorem selectMatch_mem (l : List LexerMatch) (m : LexerMatch)
    (h : selectMatch l = some m) : m ∈ l := by
  cases l with
  | nil => simp [selectMatch] at h
  | cons m0 ms =>
    simp only [selectMatch, Option.some.injEq] at h
    obtain ⟨_, l1, l2, hsplit, _⟩ := foldl_pick_spec ms m0 m h
    rw [hsplit]
    simp

/-- A gathered match comes from one of the four recognizers. -/
theorem gather_cases (data : List Char) (o : Nat) (m : LexerMatch)
    (h : m ∈ gatherMatches data o) :
    tokenize_keyword data o = some m ∨ tokenize_identifier data o = some m ∨
    tokenize_literal data o = some m ∨ tokenize_punctuator data o = some m := by
  simp only [gatherMatches, List.mem_append, Option.mem_toList, Option.mem_def] at h
  tauto

/-- Every token committed by the lexer loop carries an unset debug field. -/
theorem lexLoopF_debug (data : List Char) : ∀ (fuel o : Nat) (t : Token),
    t ∈ (lexLoopF fuel data o).1 → t.debug = none := by
  intro fuel
  induction fuel with
  | zero =>
    intro o t ht
    simp [lexLoopF] at ht
  | succ fuel ih =>
    intro o t ht
    by_cases hz : readChar data (seek data o) = '\x00'
    · simp [lexLoopF, hz] at ht
    · rcases hsel : selectMatch (gatherMatches data (seek data o)) with _ | m
      · simp [lexLoopF, hz, hsel] at ht
      · simp only [lexLoopF, hz, if_neg hz, hsel, ite_false, List.mem_cons] at ht
        rcases ht with ht0 | ht1
        · subst ht0
          rcases gather_cases data (seek data o) m (selectMatch_mem _ _ hsel) with h | h | h | h
          · exact tokenize_keyword_debug _ _ _ h
          · exact tokenize_identifier_debug _ _ _ h
          · exact tokenize_literal_debug _ _ _ h
          · exact tokenize_punctuator_debug _ _ _ h
        · exact ih (seek data o + m.length) t ht1

/-- Rewriting a token's name-buffer entry leaves its debug field
unchanged. -/
theorem setEntry_debug (t : Token) (e : NameBufferEntry) :
    (setEntry t e).debug = t.debug := by
  unfold setEntry
  split <;> rfl

/-- The compaction pass leaves every token's debug field unchanged: if all
inputs carry an unset debug field, so do all outputs. -/
theorem compactTokens_debug (data : List Char) : ∀ (toks : List Token) (names : List Char)
    (x : Token), x ∈ (compactTokens data toks names).1 →
    (∀ y ∈ toks, y.debug = none) → x.debug = none := by
  intro toks
  induction toks with
  | nil =>
    intro names x hx _
    simp [compactTokens] at hx
  | cons a as ih =>
    intro names x hx hall
    rcases he : entryOf a with _ | e
    · rcases h2 : compactTokens data as names with ⟨ts2, ns2⟩
      simp only [compactTokens, he, h2, List.mem_cons] at hx
      rcases hx with hx0 | hx1
      · rw [hx0]
        exact hall a (by simp)
      · exact ih names x (by rw [h2]; exact hx1) (fun y hy => hall y (by simp [hy]))
    · rcases h2 : compactTokens data as (names ++ readSlice data e.idx e.len) with ⟨ts2, ns2⟩
      simp only [compactTokens, he, h2, List.mem_cons] at hx
      rcases hx with hx0 | hx1
      · subst hx0
        rw [setEntry_debug]
        exact hall a (by simp)
      · exact ih (names ++ readSlice data e.idx e.len) x (by rw [h2]; exact hx1)
          (fun y hy => hall y (by simp [hy]))

/-- C4 (amended): the lexer never writes any committed token's debug data:
every token of every lexing call's output carries an unset debug field; the
Line Index is consulted only when building an UnknownToken error's line
excerpt. -/
theorem C4_debug_never_written :
    ∀ data : List Char, ((lexerRun data).tokens.all (fun t => t.debug.isNone)) = true := by
  intro data
  rw [List.all_eq_true]
  intro t ht
  have htok : (lexerRun data).tokens = (compactTokens data (lexLoop data).1 []).1 := by
    rw [lexerRun, lexer_eq]
  rw [htok] at ht
  have hd : t.debug = none :=
    compactTokens_debug data (lexLoop data).1 [] t ht
      (fun t0 h0 => lexLoopF_debug data (data.length + 1) 0 t0 h0)
  simp [hd]

/-- C8 (amended): a numeric-parse length mismatch is checked only by the
debug-build assertion macro, which never touches the returned output: on
the mismatching input `1e` the lexer still commits the Float token parsed
from the shorter prefix and returns an empty error list, and in general the
returned error list only ever contains UnknownToken errors (label plus one
line excerpt) produced when no recognizer matches. -/
theorem C8_mismatch_silently_ignored :
    (lexerRun "1e".toList).tokens = [⟨.literal (.flt 1), none⟩] ∧
    (lexerRun "1e".toList).errors = [] ∧
    numericLengthMismatch "1e".toList 0 = true ∧
    ∀ data : List Char, ((lexerRun data).errors.all
      (fun e => decide (e.code = ErrorCode.Unknown) &&
        decide (e.messages.head? = some unknownLabel) &&
        decide (e.messages.length = 2))) = true := by
  refine ⟨by with_unfolding_all rfl, by decide, by decide, ?_⟩
  intro data
  rw [List.all_eq_true]
  intro e he
  have herr : (lexerRun data).errors = (lexLoopF (data.length + 1) data 0).2 := by
    rw [lexerRun, lexer_eq]
    rfl
  rw [herr] at he
  rcases lexLoopF_spec data (data.length + 1) 0 with h | ⟨p, _, _, hp3, _⟩
  · rw [h] at he
    simp at he
  · rw [hp3] at he
    simp only [List.mem_singleton] at he
    subst he
    simp [unknownError]

/-- The compaction slice of a token always has exactly the referenced
length. -/
theorem readSlice_length (data : List Char) (idx len : Nat) :
    (readSlice data idx len).length = len := by
  simp [readSlice]

/-- When the referenced range lies inside the source buffer, the compaction
slice is the plain source substring. -/
theorem readSlice_eq_drop_take (data : List Char) (idx len : Nat)
    (h : idx + len ≤ data.length) :
    readSlice data idx len = (data.drop idx).take len := by
  have hl2 : ((data.drop idx).take len).length = len := by
    simp only [List.length_take, List.length_drop]
    omega
  apply List.ext_getElem (by rw [readSlice_length, hl2])
  intro i h1 h2
  rw [readSlice_length] at h1
  have hidx : idx + i < data.length := by omega
  simp only [readSlice, List.getElem_map, List.getElem_range, List.getElem_take,
    List.getElem_drop]
  rw [readChar, List.getD_eq_getElem?_getD, List.getElem?_eq_getElem hidx]
  rfl

/-- Rewriting the entry of a token that has one yields a token carrying the
new entry. -/
theorem entryOf_setEntry (t : Token) (e e2 : NameBufferEntry)
    (h : entryOf t = some e) : entryOf (setEntry t e2) = some e2 := by
  unfold entryOf at h ⊢
  unfold setEntry
  split at h
  · rfl
  · rfl
  · exact absurd h (by simp)

/-- Full characterization of the compaction pass: token count is preserved,
the name buffer only grows by appending, and every identifier or
string-literal token's rewritten reference points at a name-buffer segment
holding exactly the bytes read from its original source reference. -/
theorem compactTokens_spec (data : List Char) : ∀ (toks : List Token) (names0 : List Char),
    ((compactTokens data toks names0).1.length = toks.length) ∧
    (∃ suffix, (compactTokens data toks names0).2 = names0 ++ suffix) ∧
    ∀ (i : Nat) (t : Token) (e : NameBufferEntry),
      toks.get? i = some t → entryOf t = some e →
      ∃ t2 e2, (compactTokens data toks names0).1.get? i = some t2 ∧
        entryOf t2 = some e2 ∧ e2.len = e.len ∧
        (((compactTokens data toks names0).2).drop e2.idx).take e2.len =
          readSlice data e.idx e.len := by
  intro toks
  induction toks with
  | nil =>
    intro names0
    refine ⟨rfl, ⟨[], by simp [compactTokens]⟩, ?_⟩
    intro i t e hget _
    simp at hget
  | cons a as ih =>
    intro names0
    rcases hea : entryOf a with _ | e0
    · rcases h2 : compactTokens data as names0 with ⟨ts2, ns2⟩
      have ihs := ih names0
      rw [h2] at ihs
      obtain ⟨ihl, ⟨suf, ihsuf⟩, ihidx⟩ := ihs
      have hres : compactTokens data (a :: as) names0 = (a :: ts2, ns2) := by
        simp [compactTokens, hea, h2]
      rw [hres]
      refine ⟨by simp [ihl.symm], ⟨suf, by simpa using ihsuf⟩, ?_⟩
      intro i t e hget hent
      match i with
      | 0 =>
        simp only [List.get?] at hget
        injection hget with hget
        rw [hget.symm] at hent
        rw [hea] at hent
        exact absurd hent (by simp)
      | Nat.succ j =>
        simp only [List.get?] at hget
        exact ihidx j t e hget hent
    · rcases h2 : compactTokens data as (names0 ++ readSlice data e0.idx e0.len) with ⟨ts2, ns2⟩
      have ihs := ih (names0 ++ readSlice data e0.idx e0.len)
      rw [h2] at ihs
      obtain ⟨ihl, ⟨suf, ihsuf⟩, ihidx⟩ := ihs
      have ihsuf2 : ns2 = names0 ++ (readSlice data e0.idx e0.len ++ suf) := by
        simpa [List.append_assoc] using ihsuf
      have hres : compactTokens data (a :: as) names0 =
          (setEntry a ⟨names0.length, e0.len⟩ :: ts2, ns2) := by
        simp [compactTokens, hea, h2]
      rw [hres]
      refine ⟨by simp [ihl.symm], ⟨readSlice data e0.idx e0.len ++ suf, ihsuf2⟩, ?_⟩
      intro i t e hget hent
      match i with
      | 0 =>
        simp only [List.get?] at hget
        injection hget with hget
        rw [hget.symm] at hent
        rw [hea] at hent
        injection hent with hent
        subst hent
        refine ⟨setEntry a ⟨names0.length, e0.len⟩, ⟨names0.length, e0.len⟩, rfl,
          entryOf_setEntry a e0 _ hea, rfl, ?_⟩
        show (ns2.drop names0.length).take e0.len = readSlice data e0.idx e0.len
        rw [ihsuf2, List.drop_left]
        exact List.take_left' (readSlice_length data e0.idx e0.len)
      | Nat.succ j =>
        simp only [List.get?] at hget
        exact ihidx j t e hget hent

/-- C5: after the compaction pass, every identifier or string-literal
token's text reference points into the name buffer at a segment of the same
length holding exactly the bytes of the source range the token was lexed
from (for string literals that range is the raw interior between the
quotes, escapes preserved verbatim); whenever that source range lies
within the buffer, those bytes are the plain source substring. -/
theorem C5_name_buffer_roundtrip (data : List Char) (i : Nat) (t : Token) (e : NameBufferEntry)
    (h1 : (lexLoop data).1.get? i = some t) (h2 : entryOf t = some e) :
    ∃ t2 e2, (lexerRun data).tokens.get? i = some t2 ∧ entryOf t2 = some e2 ∧
      e2.len = e.len ∧
      ((lexerRun data).names.drop e2.idx).take e2.len = readSlice data e.idx e.len ∧
      (e.idx + e.len ≤ data.length →
        readSlice data e.idx e.len = (data.drop e.idx).take e.len) := by
  have htok : (lexerRun data).tokens = (compactTokens data (lexLoop data).1 []).1 := by
    rw [lexerRun, lexer_eq]
  have hnames : (lexerRun data).names = (compactTokens data (lexLoop data).1 []).2 := by
    rw [lexerRun, lexer_eq]
  obtain ⟨_, _, hidx⟩ := compactTokens_spec data (lexLoop data).1 []
  obtain ⟨t2, e2, hg, hent, hlen, hslice⟩ := hidx i t e h1 h2
  exact ⟨t2, e2, by rw [htok]; exact hg, hent, hlen, by rw [hnames]; exact hslice,
    fun hb => readSlice_eq_drop_take data e.idx e.len hb⟩

/-- Witness for C5: the two-byte identifier input `ab` produces one raw
identifier token referencing source range (0, 2). -/
theorem C5_name_buffer_roundtrip_witness :
    ((lexLoop "ab".toList).1.get? 0 = some ⟨.identifier ⟨0, 2⟩, none⟩) ∧
    (entryOf ⟨.identifier ⟨0, 2⟩, none⟩ = some ⟨0, 2⟩) ∧
    ∃ t2 e2, (lexerRun "ab".toList).tokens.get? 0 = some t2 ∧ entryOf t2 = some e2 ∧
      e2.len = (⟨0, 2⟩ : NameBufferEntry).len ∧
      ((lexerRun "ab".toList).names.drop e2.idx).take e2.len =
        readSlice "ab".toList (⟨0, 2⟩ : NameBufferEntry).idx (⟨0, 2⟩ : NameBufferEntry).len ∧
      ((⟨0, 2⟩ : NameBufferEntry).idx + (⟨0, 2⟩ : NameBufferEntry).len ≤ "ab".toList.length →
        readSlice "ab".toList (⟨0, 2⟩ : NameBufferEntry).idx (⟨0, 2⟩ : NameBufferEntry).len =
          ("ab".toList.drop (⟨0, 2⟩ : NameBufferEntry).idx).take (⟨0, 2⟩ : NameBufferEntry).len) :=
  ⟨by decide, by decide,
    C5_name_buffer_roundtrip "ab".toList 0 ⟨.identifier ⟨0, 2⟩, none⟩ ⟨0, 2⟩
      (by decide) (by decide)⟩

/-- A position that reads as a non-terminator byte lies inside the
buffer. -/
theorem lt_length_of_readChar_ne (data : List Char) (i : Nat)
    (h : readChar data i ≠ '\x00') : i < data.length := by
  by_contra hge
  push_neg at hge
  apply h
  rw [readChar, List.getD_eq_getElem?_getD, List.getElem?_eq_none hge]
  rfl

/-- Inside the buffer, `readChar` is the buffer byte itself. -/
theorem readChar_eq_get (data : List Char) (i : Nat) (h : i < data.length) :
    readChar data i = data.get ⟨i, h⟩ := by
  simp [readChar, List.getD_eq_getElem?_getD, List.getElem?_eq_getElem h]

/-- On a NUL-free buffer, reading the terminator means the position is at
or past the end. -/
theorem readChar_zero_ge (data : List Char) (hnul : '\x00' ∉ data) (i : Nat)
    (h : readChar data i = '\x00') : data.length ≤ i := by
  by_contra hlt
  push_neg at hlt
  rw [readChar_eq_get data i hlt] at h
  exact hnul (h ▸ List.get_mem data i hlt)

/-- Structure of the Line Index builder, by induction on its fuel: starting
a walk at position `i` with pending line `line` and line start `start`
yields a nonempty range list whose head starts the pending line, whose last
range ends at the buffer length, whose ranges are contiguous
(each starts one past the previous inclusive end) with start at most end,
whose line numbers count up from `line`, and which has one range per
remaining newline plus the final partial line. -/
theorem make_debug_rangesF_spec (data : List Char) (hnul : '\x00' ∉ data) :
    ∀ (fuel i line start : Nat), start ≤ i → i ≤ data.length → data.length - i < fuel →
    ∃ hd tl, make_debug_rangesF fuel data i line start = hd :: tl ∧
      hd.index_start = start ∧ hd.line = line ∧
      ((hd :: tl).getLast (by simp)).index_end = data.length ∧
      List.Chain' (fun u v => v.index_start = u.index_end + 1) (hd :: tl) ∧
      (∀ x ∈ hd :: tl, x.index_start ≤ x.index_end) ∧
      (∀ k r, (hd :: tl).get? k = some r → r.line = line + k) ∧
      (hd :: tl).length = (data.drop i).count '\n' + 1 := by
  intro fuel
  induction fuel with
  | zero =>
    intro i line start _ _ h3
    omega
  | succ fuel ih =>
    intro i line start h1 h2 h3
    by_cases hz : readChar data i = '\x00'
    · have hi : i = data.length := le_antisymm h2 (readChar_zero_ge data hnul i hz)
      refine ⟨⟨line, start, i⟩, [], by simp [make_debug_rangesF, hz], rfl, rfl,
        by simp [hi], by simp, ?_, ?_, ?_⟩
      · intro x hx
        simp only [List.mem_singleton] at hx
        subst hx
        exact h1
      · intro k r hk
        match k with
        | 0 =>
          simp only [List.get?, Option.some.injEq] at hk
          subst hk
          simp
        | Nat.succ j =>
          simp [List.get?] at hk
      · simp [hi]
    · have hilt : i < data.length := lt_length_of_readChar_ne data i hz
      have hdropc : data.drop i = data.get ⟨i, hilt⟩ :: data.drop (i + 1) := by
        rw [List.drop_eq_getElem_cons hilt]
        rfl
      by_cases hnl : readChar data i = '\n'
      · obtain ⟨hd, tl, heq, hs, hl, hlast, hchain, hbound, hlines, hcount⟩ :=
          ih (i+1) (line+1) (i+1) (le_refl _) hilt (by omega)
        refine ⟨⟨line, start, i⟩, hd :: tl, by simp [make_debug_rangesF, hz, hnl, heq],
          rfl, rfl, ?_, ?_, ?_, ?_, ?_⟩
        · rw [List.getLast_cons (by simp)]
          exact hlast
        · rw [List.chain'_cons]
          exact ⟨by simp [hs], hchain⟩
        · intro x hx
          rcases List.mem_cons.mp hx with h | h
          · subst h
            exact h1
          · exact hbound x h
        · intro k r hk
          match k with
          | 0 =>
            simp only [List.get?, Option.some.injEq] at hk
            subst hk
            simp
          | Nat.succ j =>
            simp only [List.get?] at hk
            have := hlines j r hk
            omega
        · have hcc : data.get ⟨i, hilt⟩ = '\n' := by
            rw [← readChar_eq_get data i hilt]
            exact hnl
          have hcnt : ('\n' :: data.drop (i+1)).count '\n' =
              (data.drop (i+1)).count '\n' + 1 := by simp
          rw [hdropc, hcc, hcnt]
          simp only [List.length_cons] at hcount ⊢
          omega
      · obtain ⟨hd, tl, heq, hs, hl, hlast, hchain, hbound, hlines, hcount⟩ :=
          ih (i+1) line start (by omega) hilt (by omega)
        refine ⟨hd, tl, by simp [make_debug_rangesF, hz, hnl, heq], hs, hl, hlast,
          hchain, hbound, hlines, ?_⟩
        have hcc : data.get ⟨i, hilt⟩ ≠ '\n' := by
          rw [← readChar_eq_get data i hilt]
          exact hnl
        have hcnt : (data.get ⟨i, hilt⟩ :: data.drop (i+1)).count '\n' =
            (data.drop (i+1)).count '\n' := by
          rw [List.count_cons, if_neg (by simpa using hcc)]
          omega
        rw [hdropc, hcnt]
        exact hcount

/-- Along a contiguous range chain, every later range starts strictly past
the head's inclusive end. -/
theorem chain_start_gt : ∀ (tl : List DebugRange) (a : DebugRange),
    List.Chain' (fun u v => v.index_start = u.index_end + 1) (a :: tl) →
    (∀ x ∈ a :: tl, x.index_start ≤ x.index_end) →
    ∀ x ∈ tl, a.index_end < x.index_start := by
  intro tl
  induction tl with
  | nil =>
    intro a _ _ x hx
    simp at hx
  | cons b tl ih =>
    intro a hchain hbound x hx
    rw [List.chain'_cons] at hchain
    obtain ⟨hab, hchain2⟩ := hchain
    rcases List.mem_cons.mp hx with h | h
    · subst h
      omega
    · have hbx := ih b hchain2 (fun y hy => hbound y (by simp [hy])) x h
      have hb := hbound b (by simp)
      omega

/-- On a contiguous range chain covering the probed offset, `find?` of the
first range whose inclusive end is at or past the offset returns the
unique covering range. -/
theorem find_cover : ∀ (tl : List DebugRange) (a : DebugRange) (p : Nat),
    List.Chain' (fun u v => v.index_start = u.index_end + 1) (a :: tl) →
    (∀ x ∈ a :: tl, x.index_start ≤ x.index_end) →
    a.index_start ≤ p → p ≤ ((a :: tl).getLast (by simp)).index_end →
    ∃ r, find_debug_range (a :: tl) p = some r ∧ r.index_start ≤ p ∧ p ≤ r.index_end ∧
      ∀ x ∈ a :: tl, x.index_start ≤ p → p ≤ x.index_end → x = r := by
  intro tl
  induction tl with
  | nil =>
    intro a p _ _ hap hpl
    have hpa : p ≤ a.index_end := by simpa using hpl
    refine ⟨a, ?_, hap, hpa, ?_⟩
    · exact List.find?_cons_of_pos _ (by simpa using hpa)
    · intro x hx _ _
      simpa using hx
  | cons b tl ih =>
    intro a p hchain hbound hap hpl
    have hchain2 := (List.chain'_cons.mp hchain).2
    have hab := (List.chain'_cons.mp hchain).1
    by_cases hpa : p ≤ a.index_end
    · refine ⟨a, List.find?_cons_of_pos _ (by simpa using hpa), hap, hpa, ?_⟩
      intro x hx hx1 _
      rcases List.mem_cons.mp hx with h | h
      · exact h
      · have := chain_start_gt (b :: tl) a hchain hbound x h
        omega
    · have hbp : b.index_start ≤ p := by omega
      have hpl2 : p ≤ ((b :: tl).getLast (by simp)).index_end := by
        rw [List.getLast_cons (by simp)] at hpl
        exact hpl
      obtain ⟨r, hfind, hr1, hr2, hr3⟩ :=
        ih b p hchain2 (fun y hy => hbound y (by simp [hy])) hbp hpl2
      refine ⟨r, ?_, hr1, hr2, ?_⟩
      · rw [find_debug_range] at hfind ⊢
        rw [List.find?_cons_of_neg _ (by simpa using hpa)]
        exact hfind
      · intro x hx hx1 hx2
        rcases List.mem_cons.mp hx with h | h
        · subst h
          omega
        · exact hr3 x h hx1 hx2

/-- C7: on a NUL-free source buffer the Line Index is nonempty, starts at
offset 0 on line 0, ends at the buffer length, is contiguous and gap-free
(each range starts one past the previous inclusive end, with start at most
end), numbers its lines consecutively from zero with one range per newline
plus the trailing (possibly partial) final line, and every offset up to the
buffer length resolves through `find_debug_range` (the first range whose
inclusive end is at or past the offset, as `std::lower_bound` computes on
the end-sorted table) to the unique range containing it. -/
theorem C7_line_index_partition (data : List Char) (hnul : '\x00' ∉ data) :
    (∃ hd tl, make_debug_ranges data = hd :: tl ∧ hd.index_start = 0 ∧ hd.line = 0 ∧
      ((hd :: tl).getLast (by simp)).index_end = data.length) ∧
    List.Chain' (fun u v => v.index_start = u.index_end + 1) (make_debug_ranges data) ∧
    (∀ x ∈ make_debug_ranges data, x.index_start ≤ x.index_end) ∧
    (∀ k r, (make_debug_ranges data).get? k = some r → r.line = k) ∧
    (make_debug_ranges data).length = data.count '\n' + 1 ∧
    ∀ p, p ≤ data.length →
      ∃ r, find_debug_range (make_debug_ranges data) p = some r ∧
        r.index_start ≤ p ∧ p ≤ r.index_end ∧
        ∀ x ∈ make_debug_ranges data, x.index_start ≤ p → p ≤ x.index_end → x = r := by
  obtain ⟨hd, tl, heq, hs, hl, hlast, hchain, hbound, hlines, hcount⟩ :=
    make_debug_rangesF_spec data hnul (data.length + 1) 0 0 0 (le_refl _) (by omega) (by omega)
  have heq2 : make_debug_ranges data = hd :: tl := heq
  refine ⟨⟨hd, tl, heq2, hs, hl, hlast⟩, by rw [heq2]; exact hchain,
    by rw [heq2]; exact hbound, ?_, by rw [heq2, hcount]; simp, ?_⟩
  · intro k r hk
    rw [heq2] at hk
    simpa using hlines k r hk
  · intro p hp
    rw [heq2]
    exact find_cover tl hd p hchain hbound (by omega) (by rw [hlast]; exact hp)

/-- Witness for C7: a NUL-free two-line buffer. -/
theorem C7_line_index_partition_witness :
    ('\x00' ∉ "ab\ncd".toList) ∧
    ((∃ hd tl, make_debug_ranges "ab\ncd".toList = hd :: tl ∧ hd.index_start = 0 ∧
        hd.line = 0 ∧ ((hd :: tl).getLast (by simp)).index_end = "ab\ncd".toList.length) ∧
      List.Chain' (fun u v => v.index_start = u.index_end + 1)
        (make_debug_ranges "ab\ncd".toList) ∧
      (∀ x ∈ make_debug_ranges "ab\ncd".toList, x.index_start ≤ x.index_end) ∧
      (∀ k r, (make_debug_ranges "ab\ncd".toList).get? k = some r → r.line = k) ∧
      (make_debug_ranges "ab\ncd".toList).length = "ab\ncd".toList.count '\n' + 1 ∧
      ∀ p, p ≤ "ab\ncd".toList.length →
        ∃ r, find_debug_range (make_debug_ranges "ab\ncd".toList) p = some r ∧
          r.index_start ≤ p ∧ p ≤ r.index_end ∧
          ∀ x ∈ make_debug_ranges "ab\ncd".toList,
            x.index_start ≤ p → p ≤ x.index_end → x = r) :=
  ⟨by decide, C7_line_index_partition "ab\ncd".toList (by decide)⟩

/-- Past the end of the buffer every read yields the terminator. -/
theorem readChar_eq_zero_of_ge (data : List Char) (i : Nat) (h : data.length ≤ i) :
    readChar data i = '\x00' := by
  rw [readChar, List.getD_eq_getElem?_getD, List.getElem?_eq_none h]
  rfl

/-- Lemma: `skip_untilF` runs to the end of the buffer when every byte from the
start position on is neither a terminator character nor NUL. -/
theorem skip_untilF_all (data : List Char) (terms : List Char) :
    ∀ (fuel i : Nat), data.length - i < fuel →
    (∀ j (hj : j < data.length), i ≤ j →
      data.get ⟨j, hj⟩ ∉ terms ∧ data.get ⟨j, hj⟩ ≠ '\x00') →
    skip_untilF fuel data i terms = data.length - i := by
  intro fuel
  induction fuel with
  | zero =>
    intro i h _
    omega
  | succ fuel ih =>
    intro i hfuel hall
    by_cases hi : data.length ≤ i
    · have hz := readChar_eq_zero_of_ge data i hi
      simp only [skip_untilF, hz]
      simp
      omega
    · push_neg at hi
      have hget := hall i hi (le_refl i)
      have hrc : readChar data i = data.get ⟨i, hi⟩ := readChar_eq_get data i hi
      have hnz : readChar data i ≠ '\x00' := by rw [hrc]; exact hget.2
      have hnm : readChar data i ∉ terms := by rw [hrc]; exact hget.1
      rw [skip_untilF]
      simp only [if_neg hnz, if_neg hnm]
      rw [ih (i+1) (by omega) (fun j hj hij => hall j hj (by omega))]
      omega

/-- Lemma: `skip_until` runs to the end of the buffer when every byte from the
start position on is neither a terminator character nor NUL. -/
theorem skip_until_all (data : List Char) (terms : List Char) (i : Nat)
    (hall : ∀ j (hj : j < data.length), i ≤ j →
      data.get ⟨j, hj⟩ ∉ terms ∧ data.get ⟨j, hj⟩ ≠ '\x00') :
    skip_until data i terms = data.length - i :=
  skip_untilF_all data terms (data.length + 1) i (by omega) hall

/-- The string scan of an unterminated string literal (no quote, newline or
NUL after the opener, and not ending in a backslash) runs to the end of the
buffer and stops there. -/
theorem unterminated_string_scan (rest : List Char)
    (hq : '"' ∉ rest) (hnl : '\n' ∉ rest) (hnul : '\x00' ∉ rest)
    (hbs : rest.getLast? ≠ some '\\') :
    stringScanF (('"' :: rest).length + 1) ('"' :: rest) 1 = some ('"' :: rest).length := by
  rcases rest with _ | ⟨r0, rs⟩
  · decide
  · have hlen : ('"' :: r0 :: rs).length = rs.length + 2 := by simp
    have hget1 : ∀ j (hj : j < ('"' :: r0 :: rs).length), 1 ≤ j →
        ('"' :: r0 :: rs).get ⟨j, hj⟩ ∉ ['"', '\n'] ∧
        ('"' :: r0 :: rs).get ⟨j, hj⟩ ≠ '\x00' := by
      intro j hj h1j
      match j with
      | Nat.succ j2 =>
        have hj2 : j2 < (r0 :: rs).length := by simpa using hj
        have hcs : ('"' :: r0 :: rs).get ⟨j2 + 1, hj⟩ = (r0 :: rs).get ⟨j2, hj2⟩ := by
          simp
        rw [hcs]
        have hmem : (r0 :: rs).get ⟨j2, hj2⟩ ∈ r0 :: rs := List.get_mem _ _ _
        refine ⟨?_, fun hc => hnul (hc ▸ hmem)⟩
        intro hin
        rcases List.mem_cons.mp hin with h | h
        · exact hq (h ▸ hmem)
        · simp only [List.mem_singleton] at h
          exact hnl (h ▸ hmem)
    have hskip : skip_until ('"' :: r0 :: rs) 1 ['"', '\n'] = ('"' :: r0 :: rs).length - 1 :=
      skip_until_all _ _ 1 hget1
    have hr0 : readChar ('"' :: r0 :: rs) 1 = r0 := rfl
    have hr0nz : r0 ≠ '\x00' := fun hc => hnul (by simp [hc])
    rw [stringScanF]
    simp only [hr0, if_neg hr0nz, hskip]
    have ht2 : 1 + (('"' :: r0 :: rs).length - 1) = ('"' :: r0 :: rs).length := by
      simp [hlen]
      omega
    rw [ht2]
    have hend : readChar ('"' :: r0 :: rs) (('"' :: r0 :: rs).length) = '\x00' :=
      readChar_eq_zero_of_ge _ _ (le_refl _)
    rw [hend]
    simp only [if_neg (by decide : ('\x00' : Char) ≠ '\n')]
    have hlt : ('"' :: r0 :: rs).length - 1 < ('"' :: r0 :: rs).length := by
      simp [hlen]
    have hlast : readChar ('"' :: r0 :: rs) (('"' :: r0 :: rs).length - 1) =
        (r0 :: rs).getLast (by simp) := by
      rw [readChar_eq_get _ _ hlt]
      have hgl : (r0 :: rs).getLast (by simp) =
          (r0 :: rs).get ⟨rs.length, by simp⟩ := List.getLast_eq_get _ _
      rw [hgl]
      have hfin : (⟨('"' :: r0 :: rs).length - 1, hlt⟩ : Fin ('"' :: r0 :: rs).length) =
          ⟨rs.length + 1, by simp⟩ := by
        apply Fin.ext
        simp
      rw [hfin]
      simp
    have hbs2 : (r0 :: rs).getLast (by simp) ≠ '\\' := by
      intro hc
      apply hbs
      rw [List.getLast?_eq_getLast _ (by simp), hc]
    rw [hlast]
    simp only [if_neg hbs2]

/-- Lemma: `seek` stops immediately on a significant character (not `#`, not `/`,
not whitespace, possibly the terminator itself). -/
theorem seek_eq_self (data : List Char) (i : Nat)
    (h1 : readChar data i ≠ '#') (h2 : readChar data i ≠ '/')
    (h3 : is_whitespace (readChar data i) = false) : seek data i = i := by
  rw [seek, seekF]
  by_cases hz : readChar data i = '\x00'
  · simp [hz]
  · simp [hz, h1, h2, h3]

/-- Lemma: `seek` at or past the end of the buffer stays put. -/
theorem seek_of_ge (data : List Char) (i : Nat) (h : data.length ≤ i) : seek data i = i := by
  rw [seek, seekF]
  simp [readChar_eq_zero_of_ge data i h]

/-- C10 (amended): for an input whose remaining text is an opening quote
never followed by a closing quote or a newline before end of input, and not
ending in a backslash (a trailing backslash escapes the terminator and
lengthens the match by one more byte, see the counterexample), the string
branch of the literal recognizer still reports a match: the text reference
spans every byte after the opening quote, the committed length is one byte
greater than the number of bytes remaining, and the lexing call returns
that single String token with an empty error list — the unterminated
string is never diagnosed. -/
theorem C10_unterminated_string_matches (rest : List Char)
    (hq : '"' ∉ rest) (hnl : '\n' ∉ rest) (hnul : '\x00' ∉ rest)
    (hbs : rest.getLast? ≠ some '\\') :
    tokenize_literal ('"' :: rest) 0 =
      some ⟨⟨.literal (.str ⟨1, rest.length⟩), none⟩, rest.length + 2⟩ ∧
    lexerRun ('"' :: rest) =
      ⟨[⟨.literal (.str ⟨0, rest.length⟩), none⟩], rest, [], []⟩ := by
  have hscan := unterminated_string_scan rest hq hnl hnul hbs
  have h0 : readChar ('"' :: rest) 0 = '"' := rfl
  have hlit : tokenize_literal ('"' :: rest) 0 =
      some ⟨⟨.literal (.str ⟨1, rest.length⟩), none⟩, rest.length + 2⟩ := by
    simp only [tokenize_literal, h0, if_pos, Nat.zero_add]
    have e1 : ('"' :: rest).length - 0 + 1 - 2 = rest.length := by
      simp
    have e2 : ('"' :: rest).length - 0 + 1 = rest.length + 2 := by
      simp
    rw [hscan]
    dsimp only
    rw [e1, e2]
  refine ⟨hlit, ?_⟩
  have hkw : tokenize_keyword ('"' :: rest) 0 = none := rfl
  have hid : tokenize_identifier ('"' :: rest) 0 = none := rfl
  have hpu : tokenize_punctuator ('"' :: rest) 0 = none := rfl
  have hgather : gatherMatches ('"' :: rest) 0 =
      [⟨⟨.literal (.str ⟨1, rest.length⟩), none⟩, rest.length + 2⟩] := by
    simp [gatherMatches, hkw, hid, hpu, hlit]
  have hseek0 : seek ('"' :: rest) 0 = 0 :=
    seek_eq_self _ _ (by rw [h0]; decide) (by rw [h0]; decide) (by rw [h0]; decide)
  have hloop : lexLoop ('"' :: rest) =
      ([⟨.literal (.str ⟨1, rest.length⟩), none⟩], []) := by
    rw [lexLoop, lexLoopF]
    simp only [hseek0, h0, hgather, selectMatch, List.foldl_nil]
    rw [if_neg (by decide : ¬ ('"' : Char) = '\x00')]
    have hinner : lexLoopF ('"' :: rest).length ('"' :: rest) (0 + (rest.length + 2)) =
        ([], []) := by
      have hlen2 : ('"' :: rest).length = rest.length + 1 := by simp
      rw [hlen2]
      rw [lexLoopF]
      rw [seek_of_ge _ _ (by simp)]
      rw [readChar_eq_zero_of_ge _ _ (by simp)]
      simp
    rw [hinner]
  have hslice : readSlice ('"' :: rest) 1 rest.length = rest := by
    rw [readSlice_eq_drop_take _ _ _ (by simp only [List.length_cons]; omega)]
    simp
  have hcomp : compactTokens ('"' :: rest) [⟨.literal (.str ⟨1, rest.length⟩), none⟩] [] =
      ([⟨.literal (.str ⟨0, rest.length⟩), none⟩], rest) := by
    simp [compactTokens, entryOf, setEntry, hslice]
  rw [lexerRun, lexer_eq, hloop]
  simp [hcomp]

/-- Witness for C10 (amended): the four-byte input of a quote followed by
abc, with no closing quote. -/
theorem C10_unterminated_string_matches_witness :
    ('"' ∉ ['a', 'b', 'c']) ∧ ('\n' ∉ ['a', 'b', 'c']) ∧ ('\x00' ∉ ['a', 'b', 'c']) ∧
    (['a', 'b', 'c'].getLast? ≠ some '\\') ∧
    (tokenize_literal ('"' :: ['a', 'b', 'c']) 0 =
      some ⟨⟨.literal (.str ⟨1, ['a', 'b', 'c'].length⟩), none⟩, ['a', 'b', 'c'].length + 2⟩ ∧
    lexerRun ('"' :: ['a', 'b', 'c']) =
      ⟨[⟨.literal (.str ⟨0, ['a', 'b', 'c'].length⟩), none⟩], ['a', 'b', 'c'], [], []⟩) :=
  ⟨by decide, by decide, by decide, by decide,
    C10_unterminated_string_matches ['a', 'b', 'c'] (by decide) (by decide) (by decide)
      (by decide)⟩

end nwtrees
